import Mathlib

/-!
Verification development for the SCM command-line component manager
(Shadcn-Component-Manager/scm).

The definitions below are a shallow embedding of the TypeScript sources:
  - `src/lib/versioning.ts`  (change detection, change classification,
    version increment, latest-version selection)
  - `src/lib/utils.ts`       (dependency resolution, name validation)
  - `src/cli.ts`             (version resolution against the registry index)
  - `src/commands/add.ts` and the alternate add command file
    (reserved-name redirection, file-batch install with rollback,
    circular registry-dependency detection)

The npm `semver` library functions used by the sources (`semver.valid`,
`semver.compare`, `semver.inc`) are embedded following that library's
standard behaviour (semver.org precedence; npm's increment rules).
Network fetches and filesystem effects are abstracted as explicit inputs
(`Except` values for fallible fetches, explicit ledger states for the
persisted hash file).
-/

namespace SCM

/-! ## Character and string helpers (JS string primitives) -/

/-- Whitespace characters removed by JavaScript's `String.prototype.trim`
(the ASCII subset, which is all the sources ever feed it). -/
def isWsChar (c : Char) : Bool :=
  c = ' ' || c = '\t' || c = '\n' || c = '\r' || c = '\x0b' || c = '\x0c'

/-- JavaScript `dep.trim()`. -/
def jsTrim (s : String) : String :=
  ⟨((s.data.dropWhile isWsChar).reverse.dropWhile isWsChar).reverse⟩

/-- JavaScript `s.split(sep)` on a single-character separator. -/
def splitOnChar (sep : Char) : List Char → List (List Char)
  | [] => [[]]
  | c :: rest =>
    if c = sep then [] :: splitOnChar sep rest
    else
      match splitOnChar sep rest with
      | [] => [[c]]
      | g :: gs => (c :: g) :: gs

/-- Splits a character list at the first occurrence of `sep`:
returns the part before it and, when `sep` occurs, the part after it. -/
def splitFirst (sep : Char) : List Char → (List Char × Option (List Char))
  | [] => ([], none)
  | c :: rest =>
    if c = sep then ([], some rest)
    else
      let p := splitFirst sep rest
      (c :: p.1, p.2)

/-- Substring containment on character lists (JavaScript `s.includes(pat)`). -/
def isInfixOfCL (pat : List Char) : List Char → Bool
  | [] => pat.isEmpty
  | c :: rest => pat.isPrefixOf (c :: rest) || isInfixOfCL pat rest

/-- JavaScript `s.includes(pat)`. -/
def containsSub (s pat : String) : Bool := isInfixOfCL pat.data s.data

/-- JavaScript `s.endsWith(suffix)`. -/
def endsWithStr (s sfx : String) : Bool := sfx.data.isSuffixOf s.data

/-! ## Lawful comparators

`Array.prototype.sort(cmp)` demands a consistent comparator.  The bundle
below is what `List.sorted_mergeSort` needs (transitivity and totality of
the induced `le`), packaged for the three-way comparators the sources use. -/

/-- A three-way comparator that behaves like a total preorder: antisymmetric
under `Ordering.swap`, transitive on `lt`, and substitutive on `eq`. -/
structure LawfulCmp {α : Type _} (f : α → α → Ordering) : Prop where
  symm : ∀ a b, f b a = (f a b).swap
  lt_trans : ∀ a b c, f a b = .lt → f b c = .lt → f a c = .lt
  eq_congr : ∀ a b c, f a b = .eq → f a c = f b c

/-- Lexicographic combination of two comparators, as JavaScript comparators
chain `||` and npm semver chains its comparisons. -/
def cmpThen {α : Type _} (f g : α → α → Ordering) (a b : α) : Ordering :=
  (f a b).then (g a b)

/-- Comparator on character lists induced elementwise by a comparator on
characters; shorter lists compare below their extensions, as in the npm
semver identifier loop and in JavaScript string comparison. -/
def listCompare {α : Type _} (f : α → α → Ordering) : List α → List α → Ordering
  | [], [] => .eq
  | [], _ :: _ => .lt
  | _ :: _, [] => .gt
  | x :: xs, y :: ys => (f x y).then (listCompare f xs ys)

/-! ## The npm semver library

The sources call `semver.valid`, `semver.compare`, `semver.gt` and
`semver.inc`.  The model below follows the library's documented behaviour:
versions are `major.minor.patch` with an optional dot-separated prerelease
(numeric identifiers without leading zeros, or alphanumeric identifiers over
`[0-9A-Za-z-]`) and optional build metadata (accepted, ignored for
precedence); precedence is semver.org §11; `inc` follows npm's rules,
including its special cases for prerelease versions. -/

/-- One prerelease identifier: numeric (compared as a number) or
alphanumeric (compared as an ASCII string). -/
inductive PreId where
  | num (n : Nat)
  | str (s : String)
deriving DecidableEq, Repr

/-- A parsed semantic version (build metadata is dropped at parse time,
matching `semver.parse(...).version`). -/
structure SemVer where
  major : Nat
  minor : Nat
  patch : Nat
  prerelease : List PreId
deriving DecidableEq, Repr

/-- Character comparison by code point (JavaScript `<`/`>` on the
one-character slices of an identifier string). -/
def charCompare (a b : Char) : Ordering := compare a.toNat b.toNat

/-- String comparison as JavaScript `a < b ? -1 : a > b ? 1 : 0`. -/
def strCompare (a b : String) : Ordering := listCompare charCompare a.data b.data

/-- npm semver `compareIdentifiers`: numeric identifiers sort below
alphanumeric ones; numerics compare as numbers, alphanumerics as strings. -/
def preIdCompare : PreId → PreId → Ordering
  | .num m, .num n => compare m n
  | .num _, .str _ => .lt
  | .str _, .num _ => .gt
  | .str s, .str t => strCompare s t

/-- npm semver `comparePre`: a version without prerelease identifiers sorts
above one that has them; otherwise the identifier lists compare
lexicographically, the shorter list first. -/
def comparePre : List PreId → List PreId → Ordering
  | [], [] => .eq
  | [], _ :: _ => .gt
  | _ :: _, [] => .lt
  | x :: xs, y :: ys => listCompare preIdCompare (x :: xs) (y :: ys)

/-- npm `semver.compare`: major, minor, patch, then prerelease. -/
def semverCompare : SemVer → SemVer → Ordering :=
  cmpThen (fun a b => compare a.major b.major)
    (cmpThen (fun a b => compare a.minor b.minor)
      (cmpThen (fun a b => compare a.patch b.patch)
        (fun a b => comparePre a.prerelease b.prerelease)))

/-- Strict semantic-version precedence (`semver.gt b a` / `semver.lt a b`). -/
def semverLt (a b : SemVer) : Prop := semverCompare a b = .lt

instance (a b : SemVer) : Decidable (semverLt a b) := by
  unfold semverLt; infer_instance

/-! ### Parsing and printing semver strings -/

def isDigitChar (c : Char) : Bool := '0' ≤ c && c ≤ '9'

def digitVal (c : Char) : Nat := c.toNat - 48

def digitsToNat (cs : List Char) : Nat := cs.foldl (fun n c => n * 10 + digitVal c) 0

/-- A `major`/`minor`/`patch` component or a numeric prerelease identifier:
one or more digits, no leading zero (semver.org rule, enforced by npm). -/
def parseNumeric (cs : List Char) : Option Nat :=
  match cs with
  | [] => none
  | c :: rest =>
    if (c :: rest).all isDigitChar then
      if c = '0' && !rest.isEmpty then none else some (digitsToNat (c :: rest))
    else none

/-- Characters allowed in alphanumeric prerelease/build identifiers. -/
def isIdentChar (c : Char) : Bool :=
  isDigitChar c || ('a' ≤ c && c ≤ 'z') || ('A' ≤ c && c ≤ 'Z') || c = '-'

/-- One prerelease identifier: numeric without leading zeros, otherwise
alphanumeric over `[0-9A-Za-z-]`. -/
def parsePreId (cs : List Char) : Option PreId :=
  match cs with
  | [] => none
  | c :: rest =>
    if (c :: rest).all isDigitChar then
      if c = '0' && !rest.isEmpty then none else some (.num (digitsToNat (c :: rest)))
    else if (c :: rest).all isIdentChar then some (.str ⟨c :: rest⟩)
    else none

def parsePreList (groups : List (List Char)) : Option (List PreId) :=
  groups.mapM parsePreId

/-- Build metadata: dot-separated nonempty identifiers over `[0-9A-Za-z-]`. -/
def validBuild (cs : List Char) : Bool :=
  (splitOnChar '.' cs).all (fun g => !g.isEmpty && g.all isIdentChar)

/-- Parser for npm `semver.parse` (strict): optional leading `v`, three numeric core
components, optional `-prerelease`, optional `+build` (dropped). -/
def parseSemVer (s : String) : Option SemVer :=
  let cs0 := s.data
  let cs1 := match cs0 with
    | 'v' :: rest => rest
    | _ => cs0
  let sb := splitFirst '+' cs1
  let buildOk := match sb.2 with
    | none => true
    | some b => validBuild b
  if !buildOk then none
  else
    let sp := splitFirst '-' sb.1
    match splitOnChar '.' sp.1 with
    | [mj, mn, pt] =>
      match parseNumeric mj, parseNumeric mn, parseNumeric pt with
      | some M, some m, some p =>
        match sp.2 with
        | none => some ⟨M, m, p, []⟩
        | some preCs =>
          match parsePreList (splitOnChar '.' preCs) with
          | some ids => some ⟨M, m, p, ids⟩
          | none => none
      | _, _, _ => none
    | _ => none

/-- Truthiness of `semver.valid(s)` (which returns the parsed version string
or `null`). -/
def semverValid (s : String) : Bool := (parseSemVer s).isSome

def renderPreId : PreId → String
  | .num n => toString n
  | .str s => s

/-- The `.version` string of a parsed semver (what `semver.inc` returns). -/
def renderSemVer (v : SemVer) : String :=
  toString v.major ++ "." ++ toString v.minor ++ "." ++ toString v.patch ++
    (match v.prerelease with
     | [] => ""
     | ids => "-" ++ String.intercalate "." (ids.map renderPreId))

/-- The release type accepted by `incrementVersion` in
`src/lib/versioning.ts`. -/
inductive IncType where
  | major
  | minor
  | patch
deriving DecidableEq, Repr

/-- npm `semver.inc` for the `major`/`minor`/`patch` release types,
including its prerelease special cases: bumping a prerelease version only
finalises the component when the lower components are already zero. -/
def incSemVer (v : SemVer) : IncType → SemVer
  | .major =>
    if v.minor == 0 && v.patch == 0 && !v.prerelease.isEmpty then ⟨v.major, 0, 0, []⟩
    else ⟨v.major + 1, 0, 0, []⟩
  | .minor =>
    if v.patch == 0 && !v.prerelease.isEmpty then ⟨v.major, v.minor, 0, []⟩
    else ⟨v.major, v.minor + 1, 0, []⟩
  | .patch =>
    if !v.prerelease.isEmpty then ⟨v.major, v.minor, v.patch, []⟩
    else ⟨v.major, v.minor, v.patch + 1, []⟩

/-- Function `incrementVersion` from `src/lib/versioning.ts`: throws on an invalid
base version, otherwise returns `semver.inc(version, type)`. -/
def incrementVersion (version : String) (t : IncType) : Except String String :=
  match parseSemVer version with
  | none => .error ("Invalid version: " ++ version)
  | some v => .ok (renderSemVer (incSemVer v t))

/-! ## `src/lib/versioning.ts` -/

/-- The `changeType` field of `VersionInfo`. -/
inductive ChangeType where
  | patch
  | minor
  | major
  | manual
deriving DecidableEq, Repr

def breakingChanges : List String := ["registry.json", "package.json"]

def featureFiles : List String := [".tsx", ".ts", ".js", ".jsx"]

/-- Function `determineChangeType` from `src/lib/versioning.ts` (lines 181-205):
any touched path containing a breaking-change pattern forces `major`;
otherwise a new file with a source-code extension gives `minor`;
otherwise `patch`. -/
def determineChangeType (changedFiles newFiles deletedFiles : List String) : ChangeType :=
  if (changedFiles ++ newFiles ++ deletedFiles).any
      (fun file => breakingChanges.any (fun pattern => containsSub file pattern)) then
    .major
  else if newFiles.any (fun file => featureFiles.any (fun ext => endsWithStr file ext)) then
    .minor
  else
    .patch

/-- A fingerprint snapshot: relative path to content-hash map, in the
enumeration order of the JavaScript object. -/
abbrev Snapshot := List (String × String)

structure SnapshotDiff where
  changed : List String
  added : List String
  removed : List String
deriving DecidableEq, Repr

/-- The diff loops of `detectVersionChanges` (lines 57-75): a current entry
whose path maps to a (truthy) different hash in the previous snapshot is
changed, one with no truthy previous hash is added, and a previous path with
no truthy current hash is removed. -/
def diffSnapshots (previousHashes fileHashes : Snapshot) : SnapshotDiff :=
  { changed := (fileHashes.filter (fun fh =>
      match previousHashes.lookup fh.1 with
      | some ph => !(ph == "") && !(ph == fh.2)
      | none => false)).map Prod.fst
    added := (fileHashes.filter (fun fh =>
      match previousHashes.lookup fh.1 with
      | some ph => ph == ""
      | none => true)).map Prod.fst
    removed := (previousHashes.map Prod.fst).filter (fun f =>
      match fileHashes.lookup f with
      | some h => h == ""
      | none => true) }

/-- Flag `hasChanges` as computed on line 77: any nonempty diff component. -/
def hasChangesB (d : SnapshotDiff) : Bool :=
  !d.changed.isEmpty || !d.added.isEmpty || !d.removed.isEmpty

structure VersionInfo where
  currentVersion : String
  newVersion : String
  changeType : ChangeType
  hasChanges : Bool
deriving DecidableEq, Repr

/-- Contents of `~/.scm/version-hashes.json`, keyed by component directory
name. -/
abbrev Ledger := List (String × Snapshot)

/-- State of the persisted ledger file: absent, present but unparseable,
or parsed. -/
abbrev LedgerState := Option (Except Unit Ledger)

/-- JavaScript object update `allHashes[componentKey] = fileHashes`. -/
def ledgerUpsert (m : Ledger) (k : String) (v : Snapshot) : Ledger :=
  if (m.lookup k).isSome then m.map (fun p => if p.1 == k then (k, v) else p)
  else m ++ [(k, v)]

/-- The three literal change types map onto `semver.inc` release types
(`manual` never reaches `semver.inc` in the source). -/
def ctToIncType : ChangeType → IncType
  | .major => .major
  | .minor => .minor
  | _ => .patch

/-- Function `detectVersionChanges` from `src/lib/versioning.ts`, with the hashed
file tree and the persisted ledger passed explicitly: validates the current
version, reads the previous snapshot (deleting a corrupt ledger file),
diffs, and on changes classifies, bumps, and rewrites the ledger.  Returns
the `VersionInfo` and the resulting ledger state. -/
def detectVersionChanges (componentKey currentVersion : String)
    (fileHashes : Snapshot) (st : LedgerState) :
    Except String (VersionInfo × LedgerState) :=
  if !semverValid currentVersion then
    .error ("Invalid current version: " ++ currentVersion)
  else
    let pr : Snapshot × LedgerState :=
      match st with
      | some (.ok allHashes) => ((allHashes.lookup componentKey).getD [], some (.ok allHashes))
      | some (.error _) => ([], none)
      | none => ([], none)
    let d := diffSnapshots pr.1 fileHashes
    if !hasChangesB d then
      .ok ({ currentVersion := currentVersion, newVersion := currentVersion,
             changeType := .patch, hasChanges := false }, pr.2)
    else
      let changeType := determineChangeType d.changed d.added d.removed
      match parseSemVer currentVersion with
      | none => .error ("Failed to increment version " ++ currentVersion)
      | some v =>
        let newVersion := renderSemVer (incSemVer v (ctToIncType changeType))
        let allHashes : Ledger :=
          match pr.2 with
          | some (.ok m) => m
          | _ => []
        .ok ({ currentVersion := currentVersion, newVersion := newVersion,
               changeType := changeType, hasChanges := true },
             some (.ok (ledgerUpsert allHashes componentKey fileHashes)))

/-- Comparator handed to `validVersions.sort(semver.compare)`.  It is only
ever applied to strings that passed the `semver.valid` filter; unparseable
strings (on which the library would throw) are given a default so the
comparator stays total. -/
def semverCompareStr (a b : String) : Ordering :=
  semverCompare ((parseSemVer a).getD ⟨0, 0, 0, []⟩) ((parseSemVer b).getD ⟨0, 0, 0, []⟩)

def semverLeB (a b : String) : Bool :=
  match semverCompareStr a b with
  | .gt => false
  | _ => true

/-- Function `getLatestVersion` from `src/lib/versioning.ts` (lines 237-244):
filter to valid semver strings, sort ascending with `semver.compare`
(JavaScript sorts are stable), and pop the last element. -/
def getLatestVersion (versions : List String) : Option String :=
  let validVersions := versions.filter semverValid
  if validVersions.length = 0 then none
  else (validVersions.mergeSort semverLeB).getLast?

/-! ## `src/lib/utils.ts` -/

/-- Insertion into a JavaScript `Map`/`Set` keyed by the string itself:
an existing entry keeps its position, a new one is appended. -/
def addUnique (acc : List String) (s : String) : List String :=
  if acc.contains s then acc else acc ++ [s]

/-- One iteration of the normalisation loops of `resolveDependencies`:
skip entries that are empty after trimming, insert the rest. -/
def dedupeStep (acc : List String) (d : String) : List String :=
  let t := jsTrim d
  if t == "" then acc else addUnique acc t

/-- The per-list normalisation of `resolveDependencies`: trim each entry,
drop empties, deduplicate keeping first positions. -/
def dedupeTrimmed (l : List String) : List String :=
  l.foldl dedupeStep []

structure ResolvedDeps where
  npm : List String
  registry : List String
  conflicts : List String
deriving DecidableEq, Repr

def conflictMessage (d : String) : String :=
  "Conflict: " ++ d ++ " exists in both npm and registry dependencies"

/-- Function `resolveDependencies` from `src/lib/utils.ts` (lines 270-303):
normalise both lists, then record a (non-fatal) conflict message for each
registry dependency that also appears among the npm dependencies. -/
def resolveDependencies (dependencies registryDependencies : List String) : ResolvedDeps :=
  let npmDeps := dedupeTrimmed dependencies
  let registryDeps := dedupeTrimmed registryDependencies
  { npm := npmDeps
    registry := registryDeps
    conflicts := (registryDeps.filter (fun d => npmDeps.contains d)).map conflictMessage }

def isLowerChar (c : Char) : Bool := 'a' ≤ c && c ≤ 'z'

/-- The regular expression `^[a-z][a-z0-9-]*[a-z0-9]$`. -/
def namePatternMatches (s : String) : Bool :=
  match s.data with
  | [] => false
  | c :: rest =>
    isLowerChar c &&
    (match rest with
     | [] => false
     | _ =>
       rest.dropLast.all (fun d => isLowerChar d || isDigitChar d || d = '-') &&
       (match rest.getLast? with
        | some l => isLowerChar l || isDigitChar l
        | none => false))

/-- The reserved list consulted by `validateComponentName` in
`src/lib/utils.ts` — directory/config names, not the shadcn/ui catalog. -/
def reservedNames : List String :=
  ["node_modules", "package", "package.json", "components", "lib", "src", "dist",
   "build", "test", "tests", "docs", "examples", "config", "index", "main", "app",
   "utils", "types", "interfaces", "constants"]

def jsToLower (s : String) : String := ⟨s.data.map Char.toLower⟩

structure NameValidation where
  isValid : Bool
  error : Option String
deriving DecidableEq, Repr

/-- Function `validateComponentName` from `src/lib/utils.ts` (lines 540-601), the
name gate used by the `create` and `fork` commands. -/
def validateComponentName (componentName : String) : NameValidation :=
  if componentName == "" then
    { isValid := false, error := some "Component name is required" }
  else if !namePatternMatches componentName then
    { isValid := false
      error := some "Component name must start with a letter, contain only lowercase letters, numbers, and hyphens, and end with a letter or number" }
  else if reservedNames.contains (jsToLower componentName) then
    { isValid := false
      error := some ("Component name " ++ componentName ++ " is reserved and cannot be used") }
  else if componentName.length < 2 || componentName.length > 50 then
    { isValid := false, error := some "Component name must be between 2 and 50 characters" }
  else if containsSub componentName "--" then
    { isValid := false, error := some "Component name cannot contain consecutive hyphens" }
  else
    { isValid := true, error := none }

/-! ## `src/cli.ts`: version resolution -/

/-- One record of the registry-wide index (`registry.json` at the index
URL); the `version` field of an untyped record may be absent. -/
structure IndexEntry where
  name : String
  version : Option String
deriving DecidableEq, Repr

/-- Function `resolveComponentVersion` from `src/cli.ts` (lines 329-352), with the
index fetch passed explicitly: a non-`"latest"` request is returned
unchanged; otherwise the registry index is consulted and the matching
entry's (truthy) version returned; in every other case — fetch failure,
no matching entry, missing or empty version field — the literal string
`"latest"` is returned. -/
def resolveComponentVersion (componentName version : String)
    (indexFetch : Except Unit (List IndexEntry)) : String :=
  if version != "latest" then version
  else
    match indexFetch with
    | .error _ => "latest"
    | .ok index =>
      match index.find? (fun item => item.name == componentName) with
      | some component =>
        match component.version with
        | some v => if v == "" then "latest" else v
        | none => "latest"
      | none => "latest"

/-- Follows the spec's words (§4.3 Version Resolver), for comparison with
the source's `resolveComponentVersion`: on index miss or failure it falls
back to the component's own `latest`-tagged metadata and only returns the
literal `"latest"` when that fallback also fails. -/
def resolveComponentVersionSpec (componentName version : String)
    (indexFetch : Except Unit (List IndexEntry))
    (latestMetadataVersion : Except Unit String) : String :=
  if version != "latest" then version
  else
    let fallback :=
      match latestMetadataVersion with
      | .ok v => v
      | .error _ => "latest"
    match indexFetch with
    | .error _ => fallback
    | .ok index =>
      match index.find? (fun item => item.name == componentName) with
      | some component =>
        match component.version with
        | some v => v
        | none => fallback
      | none => fallback

/-! ## The `add` command -/

/-- Modelled from the spec: `isReservedComponentName` is imported by
`src/commands/add.ts` from `src/lib/constants.ts`, but its definition (the
fixed catalog of shadcn/ui component names) is not among the provided
sources.  Per §4.5 and the README the catalog is a hardcoded list of the
vendor's core primitives and numbered block/chart/calendar/theme variants;
the list below carries the names the documentation spells out. -/
def SHADCN_RESERVED_NAMES : List String :=
  ["button", "card", "dialog", "input", "form",
   "dashboard-01", "sidebar-01", "login-01",
   "chart-area-default", "chart-bar-default",
   "calendar-01", "calendar-02",
   "theme-daylight", "theme-midnight"]

/-- Modelled from the spec: membership test against the fixed vendor
catalog (§4.5 Reserved-Name Guard). -/
def isReservedComponentName (name : String) : Bool :=
  SHADCN_RESERVED_NAMES.contains name

/-- Where a top-level `scm add <name>` is routed. -/
inductive TopRoute where
  | vendorRedirect (name : String)
  | internalInstall
deriving DecidableEq, Repr

/-- The reserved-name branch at the top of the `add` action
(`src/commands/add.ts` lines 45-77): a reserved name is redirected to
`npx shadcn@latest add`, not rejected. -/
def addCommandRoute (name : String) : TopRoute :=
  if isReservedComponentName name then .vendorRedirect name else .internalInstall

/-- JavaScript `dep.split("/").pop() || dep`. -/
def jsSplitPop (dep : String) : String :=
  match (splitOnChar '/' dep.data).getLast? with
  | some s => if s.isEmpty then dep else ⟨s⟩
  | none => dep

/-- Where one registry dependency is routed during installation. -/
inductive DepRoute where
  | vendor (depName : String)
  | scmAdd (dep : String)
deriving DecidableEq, Repr

/-- The per-dependency branch of the registry-dependency loop in
`src/commands/add.ts` (lines 323-358): a dependency whose final path
segment is a reserved name is installed through the vendor installer,
anything else through the internal registry. -/
def registryDepRoute (dep : String) : DepRoute :=
  let depName := jsSplitPop dep
  if isReservedComponentName depName then .vendor depName else .scmAdd dep

/-! ## The alternate `add` command file (circular detection and rollback) -/

/-- Function `checkCircular` from the alternate add command file (lines 378-386).
Each call receives a fresh default `visited` set in the source loop, so the
effective check is membership in `currentDeps`. -/
def checkCircular (currentDeps visited : List String) (dep : String) : Bool :=
  if visited.contains dep then true
  else if currentDeps.contains dep then true
  else false

inductive DepOutcome where
  | circularSkipped
  | installAttempted
deriving DecidableEq, Repr

/-- The registry-dependency loop (lines 388-412): `currentDeps` is seeded
with the current component's identifier; a dependency flagged circular is
skipped with an error, every other one is attempted (in a subprocess whose
own failure is caught per dependency). -/
def installRegistryDeps (ns nm : String) (registryDeps : List String) :
    List (String × DepOutcome) :=
  let currentDeps := [ns ++ "/" ++ nm]
  registryDeps.map (fun dep =>
    (dep, if checkCircular currentDeps [] dep then DepOutcome.circularSkipped
          else DepOutcome.installAttempted))

/-- What one iteration of the file-install loop does to a file: skipped by
the conflict prompt, written successfully, or failed (download, validation,
path check, or write error). -/
inductive FileStep where
  | skipped
  | written
  | failed
deriving DecidableEq, Repr

/-- The file-install loop with its catch handler (lines 239-309): written
paths accumulate in `installedFiles`; the first failure deletes every path
written so far (best-effort rollback) and propagates the error.  The result
is the list of paths left on disk and the propagated error, if any. -/
def installFilesAux : List (String × FileStep) → List String → (List String × Option String)
  | [], written => (written, none)
  | (_, .skipped) :: rest, written => installFilesAux rest written
  | (f, .written) :: rest, written => installFilesAux rest (written ++ [f])
  | (f, .failed) :: _, _ => ([], some f)

def installFiles (files : List (String × FileStep)) : List String × Option String :=
  installFilesAux files []

/-- The install flow after the file batch: dependency installs run only
when the batch succeeded, and their failures are caught per dependency
(lines 311-414), so they never remove the batch's files. -/
def addInstallFlow (files : List (String × FileStep)) (_depFailures : List String) :
    List String × Option String :=
  match installFiles files with
  | (written, none) => (written, none)
  | (_, some e) => ([], some e)

/-! ## Claim theorems: version increment (C2) -/

/-- Follows the claim's words (§4.2, §8): exactly one component is
incremented and the lower components reset to zero — a major bump resets
minor and patch, a minor bump resets patch, a patch bump increments the
last component. -/
def specBumpRule (v : SemVer) : IncType → SemVer
  | .major => ⟨v.major + 1, 0, 0, []⟩
  | .minor => ⟨v.major, v.minor + 1, 0, []⟩
  | .patch => ⟨v.major, v.minor, v.patch + 1, []⟩

theorem LawfulCmp.cmp_refl {α : Type _} {f : α → α → Ordering}
    (h : LawfulCmp f) (a : α) : f a a = .eq := by
  have hs := h.symm a a
  cases hv : f a a with
  | lt => rw [hv] at hs; exact absurd hs (by decide)
  | gt => rw [hv] at hs; exact absurd hs (by decide)
  | eq => rfl

theorem LawfulCmp.eq_congr_right {α : Type _} {f : α → α → Ordering}
    (h : LawfulCmp f) {a b : α} (c : α) (hab : f a b = .eq) : f c a = f c b := by
  rw [h.symm a c, h.symm b c, h.eq_congr a b c hab]

theorem LawfulCmp.le_trans {α : Type _} {f : α → α → Ordering}
    (h : LawfulCmp f) {a b c : α}
    (hab : f a b ≠ .gt) (hbc : f b c ≠ .gt) : f a c ≠ .gt := by
  cases h1 : f a b with
  | gt => exact absurd h1 hab
  | eq => rw [h.eq_congr a b c h1]; exact hbc
  | lt =>
    cases h2 : f b c with
    | gt => exact absurd h2 hbc
    | eq => rw [← h.eq_congr_right a h2, h1]; simp
    | lt => rw [h.lt_trans a b c h1 h2]; simp

theorem LawfulCmp.le_total {α : Type _} {f : α → α → Ordering}
    (h : LawfulCmp f) (a b : α) : f a b ≠ .gt ∨ f b a ≠ .gt := by
  cases hv : f a b with
  | gt =>
    right
    rw [h.symm a b, hv]
    simp [Ordering.swap]
  | eq => left; simp
  | lt => left; simp

theorem LawfulCmp.comap {α β : Type _} {f : α → α → Ordering}
    (h : LawfulCmp f) (g : β → α) : LawfulCmp (fun x y => f (g x) (g y)) where
  symm a b := h.symm (g a) (g b)
  lt_trans a b c := h.lt_trans (g a) (g b) (g c)
  eq_congr a b c := h.eq_congr (g a) (g b) (g c)

theorem LawfulCmp.thenCmp {α : Type _} {f g : α → α → Ordering}
    (hf : LawfulCmp f) (hg : LawfulCmp g) : LawfulCmp (cmpThen f g) where
  symm a b := by
    unfold cmpThen
    rw [hf.symm a b, hg.symm a b]
    cases f a b <;> simp [Ordering.swap, Ordering.then]
  lt_trans a b c h1 h2 := by
    unfold cmpThen at *
    cases hab : f a b with
    | gt => rw [hab] at h1; simp [Ordering.then] at h1
    | lt =>
      cases hbc : f b c with
      | gt => rw [hbc] at h2; simp [Ordering.then] at h2
      | lt => rw [hf.lt_trans a b c hab hbc]; rfl
      | eq => rw [← hf.eq_congr_right a hbc, hab]; rfl
    | eq =>
      rw [hab] at h1; simp only [Ordering.then] at h1
      cases hbc : f b c with
      | gt => rw [hbc] at h2; simp [Ordering.then] at h2
      | lt => rw [hf.eq_congr a b c hab, hbc]; rfl
      | eq =>
        rw [hbc] at h2; simp only [Ordering.then] at h2
        rw [hf.eq_congr a b c hab, hbc]
        simp only [Ordering.then]
        exact hg.lt_trans a b c h1 h2
  eq_congr a b c h1 := by
    unfold cmpThen at *
    cases hab : f a b with
    | gt => rw [hab] at h1; simp [Ordering.then] at h1
    | lt => rw [hab] at h1; simp [Ordering.then] at h1
    | eq =>
      rw [hab] at h1; simp only [Ordering.then] at h1
      rw [hf.eq_congr a b c hab, hg.eq_congr a b c h1]

theorem natCompare_lawful : LawfulCmp (fun a b : Nat => compare a b) where
  symm a b := (Nat.compare_swap a b).symm
  lt_trans a b c h1 h2 := by
    rw [Nat.compare_eq_lt] at *
    omega
  eq_congr a b c h1 := by
    rw [Nat.compare_eq_eq] at h1
    subst h1
    rfl

theorem thenSwap (o p : Ordering) : (o.then p).swap = o.swap.then p.swap := by
  cases o <;> cases p <;> rfl

theorem listCompare_lawful {α : Type _} {f : α → α → Ordering}
    (hf : LawfulCmp f) : LawfulCmp (listCompare f) where
  symm a b := by
    induction a generalizing b with
    | nil => cases b <;> rfl
    | cons x xs ih =>
      cases b with
      | nil => rfl
      | cons y ys =>
        show (f y x).then (listCompare f ys xs) = ((f x y).then (listCompare f xs ys)).swap
        rw [thenSwap, hf.symm x y, ih ys]
  lt_trans a b c h1 h2 := by
    induction a generalizing b c with
    | nil =>
      cases b with
      | nil => exact nomatch h1
      | cons y ys =>
        cases c with
        | nil => exact nomatch h2
        | cons z zs => rfl
    | cons x xs ih =>
      cases b with
      | nil => exact nomatch h1
      | cons y ys =>
        cases c with
        | nil => exact nomatch h2
        | cons z zs =>
          show (f x z).then (listCompare f xs zs) = .lt
          have h1' : (f x y).then (listCompare f xs ys) = .lt := h1
          have h2' : (f y z).then (listCompare f ys zs) = .lt := h2
          cases hxy : f x y with
          | gt => rw [hxy] at h1'; exact nomatch h1'
          | lt =>
            cases hyz : f y z with
            | gt => rw [hyz] at h2'; exact nomatch h2'
            | lt => rw [hf.lt_trans x y z hxy hyz]; rfl
            | eq => rw [← hf.eq_congr_right x hyz, hxy]; rfl
          | eq =>
            rw [hxy] at h1'; simp only [Ordering.then] at h1'
            cases hyz : f y z with
            | gt => rw [hyz] at h2'; exact nomatch h2'
            | lt => rw [hf.eq_congr x y z hxy, hyz]; rfl
            | eq =>
              rw [hyz] at h2'; simp only [Ordering.then] at h2'
              rw [hf.eq_congr x y z hxy, hyz]
              simp only [Ordering.then]
              exact ih ys zs h1' h2'
  eq_congr a b c h1 := by
    induction a generalizing b c with
    | nil =>
      cases b with
      | nil => rfl
      | cons y ys => exact nomatch h1
    | cons x xs ih =>
      cases b with
      | nil => exact nomatch h1
      | cons y ys =>
        have h1' : (f x y).then (listCompare f xs ys) = .eq := h1
        cases hxy : f x y with
        | gt => rw [hxy] at h1'; exact nomatch h1'
        | lt => rw [hxy] at h1'; exact nomatch h1'
        | eq =>
          rw [hxy] at h1'; simp only [Ordering.then] at h1'
          cases c with
          | nil => rfl
          | cons z zs =>
            show (f x z).then (listCompare f xs zs) = (f y z).then (listCompare f ys zs)
            rw [hf.eq_congr x y z hxy, ih ys zs h1']

theorem charCompare_lawful : LawfulCmp charCompare :=
  natCompare_lawful.comap Char.toNat

theorem strCompare_lawful : LawfulCmp strCompare :=
  (listCompare_lawful charCompare_lawful).comap String.data

theorem preIdCompare_lawful : LawfulCmp preIdCompare where
  symm a b := by
    cases a with
    | num m =>
      cases b with
      | num n => exact natCompare_lawful.symm m n
      | str t => rfl
    | str s =>
      cases b with
      | num n => rfl
      | str t => exact strCompare_lawful.symm s t
  lt_trans a b c h1 h2 := by
    cases a with
    | num m =>
      cases b with
      | num n =>
        cases c with
        | num k => exact natCompare_lawful.lt_trans m n k h1 h2
        | str u => rfl
      | str t =>
        cases c with
        | num k => exact nomatch h2
        | str u => rfl
    | str s =>
      cases b with
      | num n => exact nomatch h1
      | str t =>
        cases c with
        | num k => exact nomatch h2
        | str u => exact strCompare_lawful.lt_trans s t u h1 h2
  eq_congr a b c h1 := by
    cases a with
    | num m =>
      cases b with
      | num n =>
        have hmn : m = n := Nat.compare_eq_eq.mp h1
        subst hmn
        rfl
      | str t => exact nomatch h1
    | str s =>
      cases b with
      | num n => exact nomatch h1
      | str t =>
        cases c with
        | num k => rfl
        | str u => exact strCompare_lawful.eq_congr s t u h1

theorem comparePre_lawful : LawfulCmp comparePre where
  symm a b := by
    cases a with
    | nil => cases b <;> rfl
    | cons x xs =>
      cases b with
      | nil => rfl
      | cons y ys => exact (listCompare_lawful preIdCompare_lawful).symm (x :: xs) (y :: ys)
  lt_trans a b c h1 h2 := by
    cases a with
    | nil =>
      cases b with
      | nil => exact nomatch h1
      | cons y ys => exact nomatch h1
    | cons x xs =>
      cases b with
      | nil =>
        cases c with
        | nil => exact nomatch h2
        | cons z zs => exact nomatch h2
      | cons y ys =>
        cases c with
        | nil => rfl
        | cons z zs =>
          exact (listCompare_lawful preIdCompare_lawful).lt_trans (x :: xs) (y :: ys) (z :: zs) h1 h2
  eq_congr a b c h1 := by
    cases a with
    | nil =>
      cases b with
      | nil => rfl
      | cons y ys => exact nomatch h1
    | cons x xs =>
      cases b with
      | nil => exact nomatch h1
      | cons y ys =>
        cases c with
        | nil => rfl
        | cons z zs =>
          exact (listCompare_lawful preIdCompare_lawful).eq_congr (x :: xs) (y :: ys) (z :: zs) h1

theorem semverCompare_lawful : LawfulCmp semverCompare :=
  ((natCompare_lawful.comap SemVer.major).thenCmp
    ((natCompare_lawful.comap SemVer.minor).thenCmp
      ((natCompare_lawful.comap SemVer.patch).thenCmp
        (comparePre_lawful.comap SemVer.prerelease))))

/-! ## Helper lemmas: association-list lookup -/

theorem lookup_eq_some_of_mem {β : Type _} :
    ∀ (l : List (String × β)), (l.map Prod.fst).Nodup →
      ∀ {f : String} {h : β}, (f, h) ∈ l → l.lookup f = some h := by
  intro l
  induction l with
  | nil => intro _ f h hm; exact absurd hm (List.not_mem_nil _)
  | cons p t ih =>
    intro hk f h hm
    have hk' := List.nodup_cons.mp hk
    rcases List.mem_cons.mp hm with heq | ht
    · rw [← heq]
      simp [List.lookup]
    · have hne : f ≠ p.1 := by
        intro hfe
        exact hk'.1 (hfe ▸ List.mem_map_of_mem Prod.fst ht)
      have : (f == p.1) = false := beq_eq_false_iff_ne.mpr hne
      simp [List.lookup, this]
      exact ih hk'.2 ht

theorem mem_of_lookup_eq_some {β : Type _} :
    ∀ (l : List (String × β)) {f : String} {h : β},
      l.lookup f = some h → (f, h) ∈ l := by
  intro l
  induction l with
  | nil => intro f h hl; exact absurd hl (by simp [List.lookup])
  | cons p t ih =>
    intro f h hl
    by_cases hfe : f = p.1
    · subst hfe
      simp [List.lookup] at hl
      rw [List.mem_cons]
      left
      rw [← hl]
    · have hb : (f == p.1) = false := beq_eq_false_iff_ne.mpr hfe
      simp [List.lookup, hb] at hl
      exact List.mem_cons.mpr (Or.inr (ih hl))

theorem lookup_eq_none_iff {β : Type _} :
    ∀ (l : List (String × β)) (f : String),
      l.lookup f = none ↔ f ∉ l.map Prod.fst := by
  intro l
  induction l with
  | nil => intro f; simp [List.lookup]
  | cons p t ih =>
    intro f
    by_cases hfe : f = p.1
    · subst hfe
      simp [List.lookup]
    · have hb : (f == p.1) = false := beq_eq_false_iff_ne.mpr hfe
      simp [List.lookup, hb, ih, hfe]

theorem lookup_isSome_iff {β : Type _} (l : List (String × β)) (f : String) :
    (∃ h, l.lookup f = some h) ↔ f ∈ l.map Prod.fst := by
  constructor
  · intro ⟨h, hl⟩
    by_contra hn
    rw [← lookup_eq_none_iff] at hn
    rw [hn] at hl
    exact Option.noConfusion hl
  · intro hm
    cases hl : l.lookup f with
    | some h => exact ⟨h, rfl⟩
    | none => exact absurd ((lookup_eq_none_iff l f).mp hl) (not_not_intro hm)

/-! ## Helper lemmas: snapshot diffing -/

theorem mem_diff_changed (previous current : Snapshot)
    (hkc : (current.map Prod.fst).Nodup)
    (hvp : ∀ p ∈ previous, p.2 ≠ "") (f : String) :
    f ∈ (diffSnapshots previous current).changed ↔
      ∃ hp hc, previous.lookup f = some hp ∧ current.lookup f = some hc ∧ hp ≠ hc := by
  constructor
  · intro hm
    rcases List.mem_map.mp hm with ⟨⟨f2, h⟩, hmf, hfst⟩
    have hf2 : f = f2 := hfst.symm
    subst hf2
    have hflt := List.mem_filter.mp hmf
    have hc : current.lookup f = some h := lookup_eq_some_of_mem current hkc hflt.1
    cases hl : previous.lookup f with
    | none => rw [hl] at hflt; exact absurd hflt.2 (by simp)
    | some ph =>
      have hp2 := hflt.2
      rw [hl] at hp2
      simp only [Bool.and_eq_true, Bool.not_eq_true', beq_eq_false_iff_ne] at hp2
      exact ⟨ph, h, rfl, hc, hp2.2⟩
  · intro ⟨hp, hc, h1, h2, hne⟩
    have hmem : (f, hc) ∈ current := mem_of_lookup_eq_some current h2
    have hpne : hp ≠ "" := hvp (f, hp) (mem_of_lookup_eq_some previous h1)
    apply List.mem_map.mpr
    refine ⟨(f, hc), List.mem_filter.mpr ⟨hmem, ?_⟩, rfl⟩
    rw [h1]
    simp only [Bool.and_eq_true, Bool.not_eq_true', beq_eq_false_iff_ne]
    exact ⟨hpne, hne⟩

theorem mem_diff_added (previous current : Snapshot)
    (hkc : (current.map Prod.fst).Nodup)
    (hvp : ∀ p ∈ previous, p.2 ≠ "") (f : String) :
    f ∈ (diffSnapshots previous current).added ↔
      previous.lookup f = none ∧ ∃ hc, current.lookup f = some hc := by
  constructor
  · intro hm
    rcases List.mem_map.mp hm with ⟨⟨f2, h⟩, hmf, hfst⟩
    have hf2 : f = f2 := hfst.symm
    subst hf2
    have hflt := List.mem_filter.mp hmf
    have hc : current.lookup f = some h := lookup_eq_some_of_mem current hkc hflt.1
    cases hl : previous.lookup f with
    | none => exact ⟨rfl, h, hc⟩
    | some ph =>
      have hp2 := hflt.2
      rw [hl] at hp2
      simp only [beq_iff_eq] at hp2
      exact absurd hp2 (hvp (f, ph) (mem_of_lookup_eq_some previous hl))
  · intro ⟨h1, hc, h2⟩
    apply List.mem_map.mpr
    refine ⟨(f, hc), List.mem_filter.mpr ⟨mem_of_lookup_eq_some current h2, ?_⟩, rfl⟩
    rw [h1]

theorem mem_diff_removed (previous current : Snapshot)
    (hvc : ∀ p ∈ current, p.2 ≠ "") (f : String) :
    f ∈ (diffSnapshots previous current).removed ↔
      current.lookup f = none ∧ ∃ hp, previous.lookup f = some hp := by
  constructor
  · intro hm
    have hflt := List.mem_filter.mp hm
    refine ⟨?_, (lookup_isSome_iff previous f).mpr hflt.1⟩
    cases hl : current.lookup f with
    | none => rfl
    | some h =>
      have hq := hflt.2
      rw [hl] at hq
      simp only [beq_iff_eq] at hq
      exact absurd hq (hvc (f, h) (mem_of_lookup_eq_some current hl))
  · intro ⟨h1, hp, h2⟩
    apply List.mem_filter.mpr
    refine ⟨(lookup_isSome_iff previous f).mp ⟨hp, h2⟩, ?_⟩
    rw [h1]

theorem diffSnapshots_self (s : Snapshot)
    (hk : (s.map Prod.fst).Nodup) (hv : ∀ p ∈ s, p.2 ≠ "") :
    diffSnapshots s s = ⟨[], [], []⟩ := by
  have hchanged : (s.filter (fun fh =>
      match s.lookup fh.1 with
      | some ph => !(ph == "") && !(ph == fh.2)
      | none => false)) = [] := by
    rw [List.filter_eq_nil_iff]
    intro ⟨f, h⟩ hm
    rw [lookup_eq_some_of_mem s hk hm]
    simp
  have hadded : (s.filter (fun fh =>
      match s.lookup fh.1 with
      | some ph => ph == ""
      | none => true)) = [] := by
    rw [List.filter_eq_nil_iff]
    intro ⟨f, h⟩ hm
    rw [lookup_eq_some_of_mem s hk hm]
    simp
    exact hv (f, h) hm
  have hremoved : ((s.map Prod.fst).filter (fun f =>
      match s.lookup f with
      | some h => h == ""
      | none => true)) = [] := by
    rw [List.filter_eq_nil_iff]
    intro f hm
    rcases List.mem_map.mp hm with ⟨⟨f2, h⟩, hmem, hfst⟩
    cases hfst
    rw [lookup_eq_some_of_mem s hk hmem]
    simp
    exact hv (f2, h) hmem
  show SnapshotDiff.mk _ _ _ = _
  rw [hchanged, hadded, hremoved]
  rfl

/-! ## Claim theorems: snapshot diffing (C4) and the no-change publish path (C9) -/

/-- C4: snapshot diffing classifies a path present in both maps with
different hashes as changed, a path present only in the current map as
added, and a path present only in the previous map as removed; and diffing
a snapshot against itself yields empty changed/added/removed sets, with
`hasChanges = false` reported.  (Snapshots are JavaScript objects of sha256
hex digests: keys are unique and hash values nonempty.) -/
theorem diffSnapshots_classification (previous current : Snapshot)
    (hkp : (previous.map Prod.fst).Nodup) (hkc : (current.map Prod.fst).Nodup)
    (hvp : ∀ p ∈ previous, p.2 ≠ "") (hvc : ∀ p ∈ current, p.2 ≠ "") :
    (∀ f, f ∈ (diffSnapshots previous current).changed ↔
      ∃ hp hc, previous.lookup f = some hp ∧ current.lookup f = some hc ∧ hp ≠ hc) ∧
    (∀ f, f ∈ (diffSnapshots previous current).added ↔
      previous.lookup f = none ∧ ∃ hc, current.lookup f = some hc) ∧
    (∀ f, f ∈ (diffSnapshots previous current).removed ↔
      current.lookup f = none ∧ ∃ hp, previous.lookup f = some hp) ∧
    diffSnapshots previous previous = ⟨[], [], []⟩ ∧
    hasChangesB (diffSnapshots previous previous) = false := by
  refine ⟨fun f => mem_diff_changed previous current hkc hvp f,
          fun f => mem_diff_added previous current hkc hvp f,
          fun f => mem_diff_removed previous current hvc f,
          diffSnapshots_self previous hkp hvp, ?_⟩
  rw [diffSnapshots_self previous hkp hvp]
  rfl

/-- Closed instance of `diffSnapshots_classification` with its hypotheses
discharged on concrete snapshots. -/
theorem diffSnapshots_classification_witness :
    "a.tsx" ∈ (diffSnapshots [("a.tsx", "h1")] [("a.tsx", "h2")]).changed ∧
    diffSnapshots [("a.tsx", "h1")] [("a.tsx", "h1")] = ⟨[], [], []⟩ :=
  ⟨((diffSnapshots_classification [("a.tsx", "h1")] [("a.tsx", "h2")]
      (by decide) (by decide) (by decide) (by decide)).1 "a.tsx").mpr
      ⟨"h1", "h2", by decide, by decide, by decide⟩,
   (diffSnapshots_classification [("a.tsx", "h1")] [("a.tsx", "h2")]
      (by decide) (by decide) (by decide) (by decide)).2.2.2.1⟩

/-- C9: when the freshly hashed file tree coincides with the snapshot
persisted for the component, `detectVersionChanges` reports
`hasChanges = false` with `newVersion = currentVersion` and leaves the
ledger state exactly as it was: the ledger is rewritten only on changes. -/
theorem detectVersionChanges_noChanges (componentKey currentVersion : String)
    (fileHashes : Snapshot) (ledger : Ledger)
    (hval : semverValid currentVersion = true)
    (hlk : ledger.lookup componentKey = some fileHashes)
    (hk : (fileHashes.map Prod.fst).Nodup)
    (hv : ∀ p ∈ fileHashes, p.2 ≠ "") :
    detectVersionChanges componentKey currentVersion fileHashes (some (.ok ledger)) =
      .ok ({ currentVersion := currentVersion, newVersion := currentVersion,
             changeType := .patch, hasChanges := false }, some (.ok ledger)) := by
  unfold detectVersionChanges
  rw [hval]
  simp only [Bool.not_true, Bool.false_eq_true, if_false, hlk, Option.getD_some]
  rw [diffSnapshots_self fileHashes hk hv]
  rfl

/-- Closed instance of `detectVersionChanges_noChanges` at a concrete
component, version, snapshot and ledger. -/
theorem detectVersionChanges_noChanges_witness :
    detectVersionChanges "button" "1.0.0" [("button.tsx", "aa")]
        (some (.ok [("button", [("button.tsx", "aa")])])) =
      .ok ({ currentVersion := "1.0.0", newVersion := "1.0.0",
             changeType := .patch, hasChanges := false },
           some (.ok [("button", [("button.tsx", "aa")])])) :=
  detectVersionChanges_noChanges "button" "1.0.0" [("button.tsx", "aa")]
    [("button", [("button.tsx", "aa")])] (by decide) (by decide) (by decide) (by decide)

/-! ## Claim theorem: change classification (C3) -/

/-- C3: `determineChangeType` is a function of the three path lists and
follows the priority order: any touched path containing `registry.json` or
`package.json` gives `major` regardless of everything else; otherwise an
added path ending in `.tsx`/`.ts`/`.js`/`.jsx` gives `minor`; otherwise
`patch`. -/
theorem determineChangeType_spec (changedFiles newFiles deletedFiles : List String) :
    (determineChangeType changedFiles newFiles deletedFiles = .major ↔
      ∃ f ∈ changedFiles ++ newFiles ++ deletedFiles,
        containsSub f "registry.json" = true ∨ containsSub f "package.json" = true) ∧
    (determineChangeType changedFiles newFiles deletedFiles = .minor ↔
      (¬ ∃ f ∈ changedFiles ++ newFiles ++ deletedFiles,
        containsSub f "registry.json" = true ∨ containsSub f "package.json" = true) ∧
      ∃ f ∈ newFiles, endsWithStr f ".tsx" = true ∨ endsWithStr f ".ts" = true ∨
        endsWithStr f ".js" = true ∨ endsWithStr f ".jsx" = true) ∧
    (determineChangeType changedFiles newFiles deletedFiles = .patch ↔
      (¬ ∃ f ∈ changedFiles ++ newFiles ++ deletedFiles,
        containsSub f "registry.json" = true ∨ containsSub f "package.json" = true) ∧
      ¬ ∃ f ∈ newFiles, endsWithStr f ".tsx" = true ∨ endsWithStr f ".ts" = true ∨
        endsWithStr f ".js" = true ∨ endsWithStr f ".jsx" = true) := by
  have hB : ((changedFiles ++ newFiles ++ deletedFiles).any
      (fun file => breakingChanges.any (fun pattern => containsSub file pattern)) = true) ↔
      ∃ f ∈ changedFiles ++ newFiles ++ deletedFiles,
        containsSub f "registry.json" = true ∨ containsSub f "package.json" = true := by
    simp only [List.any_eq_true, breakingChanges, List.any_cons, List.any_nil,
      Bool.or_eq_true, Bool.false_eq_true, or_false]
  have hF : (newFiles.any (fun file => featureFiles.any (fun ext => endsWithStr file ext)) = true) ↔
      ∃ f ∈ newFiles, endsWithStr f ".tsx" = true ∨ endsWithStr f ".ts" = true ∨
        endsWithStr f ".js" = true ∨ endsWithStr f ".jsx" = true := by
    simp only [List.any_eq_true, featureFiles, List.any_cons, List.any_nil,
      Bool.or_eq_true, Bool.false_eq_true, or_false]
  cases hb : (changedFiles ++ newFiles ++ deletedFiles).any
      (fun file => breakingChanges.any (fun pattern => containsSub file pattern)) with
  | true =>
    have hP1 := hB.mp hb
    have hD : determineChangeType changedFiles newFiles deletedFiles = .major := by
      unfold determineChangeType
      rw [hb]
      rfl
    refine ⟨iff_of_true hD hP1, ?_, ?_⟩
    · exact iff_of_false (by rw [hD]; decide) (fun h => h.1 hP1)
    · exact iff_of_false (by rw [hD]; decide) (fun h => h.1 hP1)
  | false =>
    have hnP1 : ¬ ∃ f ∈ changedFiles ++ newFiles ++ deletedFiles,
        containsSub f "registry.json" = true ∨ containsSub f "package.json" = true := by
      intro h
      rw [hB.mpr h] at hb
      exact Bool.noConfusion hb
    cases hf : newFiles.any (fun file => featureFiles.any (fun ext => endsWithStr file ext)) with
    | true =>
      have hP2 := hF.mp hf
      have hD : determineChangeType changedFiles newFiles deletedFiles = .minor := by
        unfold determineChangeType
        rw [hb, hf]
        rfl
      refine ⟨?_, iff_of_true hD ⟨hnP1, hP2⟩, ?_⟩
      · exact iff_of_false (by rw [hD]; decide) (fun h => hnP1 h)
      · exact iff_of_false (by rw [hD]; decide) (fun h => h.2 hP2)
    | false =>
      have hnP2 : ¬ ∃ f ∈ newFiles, endsWithStr f ".tsx" = true ∨ endsWithStr f ".ts" = true ∨
          endsWithStr f ".js" = true ∨ endsWithStr f ".jsx" = true := by
        intro h
        rw [hF.mpr h] at hf
        exact Bool.noConfusion hf
      have hD : determineChangeType changedFiles newFiles deletedFiles = .patch := by
        unfold determineChangeType
        rw [hb, hf]
        rfl
      refine ⟨?_, ?_, iff_of_true hD ⟨hnP1, hnP2⟩⟩
      · exact iff_of_false (by rw [hD]; decide) (fun h => hnP1 h)
      · exact iff_of_false (by rw [hD]; decide) (fun h => hnP2 h.2)

/-- Closed instance of `determineChangeType_spec`: a single added source
file with no breaking-change path gives a minor bump. -/
theorem determineChangeType_witness :
    determineChangeType [] ["button.tsx"] [] = ChangeType.minor :=
  ((determineChangeType_spec [] ["button.tsx"] []).2.1).mpr
    ⟨by decide, "button.tsx", by decide, by decide⟩

/-! ## Helper lemmas: dependency deduplication (C5) -/

theorem mem_addUnique (acc : List String) (s x : String) :
    x ∈ addUnique acc s ↔ x ∈ acc ∨ x = s := by
  unfold addUnique
  by_cases h : s ∈ acc
  · rw [if_pos (by simpa using h)]
    exact ⟨fun hx => Or.inl hx, fun hx => hx.elim id (fun he => he ▸ h)⟩
  · rw [if_neg (by simpa using h)]
    simp

theorem addUnique_nodup (acc : List String) (s : String) (h : acc.Nodup) :
    (addUnique acc s).Nodup := by
  unfold addUnique
  by_cases hm : s ∈ acc
  · rw [if_pos (by simpa using hm)]
    exact h
  · rw [if_neg (by simpa using hm)]
    rw [List.nodup_append]
    exact ⟨h, List.nodup_singleton s,
      fun a ha hs => hm ((List.mem_singleton.mp hs) ▸ ha)⟩

theorem dedupeStep_nodup (acc : List String) (d : String) (h : acc.Nodup) :
    (dedupeStep acc d).Nodup := by
  unfold dedupeStep
  by_cases he : jsTrim d = ""
  · rw [if_pos (by simpa using he)]
    exact h
  · rw [if_neg (by simpa using he)]
    exact addUnique_nodup _ _ h

theorem mem_dedupeStep (acc : List String) (d x : String) :
    x ∈ dedupeStep acc d ↔ x ∈ acc ∨ (jsTrim d = x ∧ x ≠ "") := by
  unfold dedupeStep
  by_cases he : jsTrim d = ""
  · rw [if_pos (by simpa using he)]
    exact ⟨fun hx => Or.inl hx,
      fun hx => hx.elim id (fun ⟨heq, hne⟩ => absurd (heq ▸ he) hne)⟩
  · rw [if_neg (by simpa using he)]
    rw [mem_addUnique]
    constructor
    · rintro (hx | rfl)
      · exact Or.inl hx
      · exact Or.inr ⟨rfl, he⟩
    · rintro (hx | ⟨rfl, _⟩)
      · exact Or.inl hx
      · exact Or.inr rfl

theorem foldl_dedupeStep_nodup :
    ∀ (l acc : List String), acc.Nodup → (l.foldl dedupeStep acc).Nodup := by
  intro l
  induction l with
  | nil => exact fun acc h => h
  | cons d rest ih =>
    intro acc h
    simp only [List.foldl_cons]
    exact ih _ (dedupeStep_nodup acc d h)

theorem mem_foldl_dedupeStep :
    ∀ (l acc : List String) (x : String),
      x ∈ l.foldl dedupeStep acc ↔ x ∈ acc ∨ ∃ d ∈ l, jsTrim d = x ∧ x ≠ "" := by
  intro l
  induction l with
  | nil => intro acc x; simp
  | cons d rest ih =>
    intro acc x
    simp only [List.foldl_cons, List.mem_cons]
    rw [ih (dedupeStep acc d) x]
    rw [mem_dedupeStep]
    constructor
    · rintro ((hx | ⟨heq, hne⟩) | ⟨e, he, heq, hne⟩)
      · exact Or.inl hx
      · exact Or.inr ⟨d, Or.inl rfl, heq, hne⟩
      · exact Or.inr ⟨e, Or.inr he, heq, hne⟩
    · rintro (hx | ⟨e, (rfl | he), heq, hne⟩)
      · exact Or.inl (Or.inl hx)
      · exact Or.inl (Or.inr ⟨heq, hne⟩)
      · exact Or.inr ⟨e, he, heq, hne⟩

theorem mem_dedupeTrimmed (l : List String) (x : String) :
    x ∈ dedupeTrimmed l ↔ x ≠ "" ∧ ∃ d ∈ l, jsTrim d = x := by
  unfold dedupeTrimmed
  rw [mem_foldl_dedupeStep]
  constructor
  · rintro (hx | ⟨d, hd, heq, hne⟩)
    · exact absurd hx (List.not_mem_nil x)
    · exact ⟨hne, d, hd, heq⟩
  · rintro ⟨hne, d, hd, heq⟩
    exact Or.inr ⟨d, hd, heq, hne⟩

theorem dedupeTrimmed_nodup (l : List String) : (dedupeTrimmed l).Nodup :=
  foldl_dedupeStep_nodup l [] List.nodup_nil

/-! ## Claim theorem: dependency resolution (C5) -/

/-- C5: `resolveDependencies` trims entries, drops empties, and
deduplicates each list independently (the outputs hold exactly the nonempty
trimmed entries, without duplicates), and every string present in both the
npm output and the registry output contributes a conflict message naming
it; the function is total, so recording conflicts never fails the
operation. -/
theorem resolveDependencies_spec (dependencies registryDependencies : List String) :
    (resolveDependencies dependencies registryDependencies).npm.Nodup ∧
    (resolveDependencies dependencies registryDependencies).registry.Nodup ∧
    (∀ s, s ∈ (resolveDependencies dependencies registryDependencies).npm ↔
      s ≠ "" ∧ ∃ d ∈ dependencies, jsTrim d = s) ∧
    (∀ s, s ∈ (resolveDependencies dependencies registryDependencies).registry ↔
      s ≠ "" ∧ ∃ d ∈ registryDependencies, jsTrim d = s) ∧
    (∀ s, s ∈ (resolveDependencies dependencies registryDependencies).npm →
      s ∈ (resolveDependencies dependencies registryDependencies).registry →
      conflictMessage s ∈ (resolveDependencies dependencies registryDependencies).conflicts) := by
  refine ⟨dedupeTrimmed_nodup dependencies, dedupeTrimmed_nodup registryDependencies,
    fun s => mem_dedupeTrimmed dependencies s,
    fun s => mem_dedupeTrimmed registryDependencies s,
    fun s hn hr => ?_⟩
  apply List.mem_map_of_mem conflictMessage
  apply List.mem_filter.mpr
  exact ⟨hr, by simpa using hn⟩

/-- Closed instance of `resolveDependencies_spec`: the shared dependency
`react` produces a conflict message. -/
theorem resolveDependencies_witness :
    conflictMessage "react" ∈
      (resolveDependencies ["react", " react ", ""] ["zod", "react"]).conflicts :=
  (resolveDependencies_spec ["react", " react ", ""] ["zod", "react"]).2.2.2.2 "react"
    (by decide) (by decide)

/-! ## Claim theorem: circular registry dependencies (C6) -/

theorem checkCircular_singleton (self dep : String) :
    checkCircular [self] [] dep = (dep == self) := by
  cases hb : dep == self <;>
    simp [checkCircular, List.contains, List.elem, hb]

/-- C6: in the registry-dependency loop the visited set is seeded with the
current component's identifier, so a dependency is reported circular and
skipped exactly when it names the component itself; every dependency in the
list still gets its own entry (siblings are not aborted), and the loop is a
plain traversal (no recursion is possible, the attempted installs run with
dependencies skipped). -/
theorem installRegistryDeps_spec (ns nm : String) (registryDeps : List String) :
    (installRegistryDeps ns nm registryDeps).length = registryDeps.length ∧
    (∀ dep ∈ registryDeps,
      ((dep, DepOutcome.circularSkipped) ∈ installRegistryDeps ns nm registryDeps ↔
        dep = ns ++ "/" ++ nm)) ∧
    (∀ dep ∈ registryDeps, dep ≠ ns ++ "/" ++ nm →
      (dep, DepOutcome.installAttempted) ∈ installRegistryDeps ns nm registryDeps) := by
  have hfun : installRegistryDeps ns nm registryDeps =
      registryDeps.map (fun dep =>
        (dep, if dep = ns ++ "/" ++ nm then DepOutcome.circularSkipped
              else DepOutcome.installAttempted)) := by
    unfold installRegistryDeps
    apply List.map_congr_left
    intro dep _
    rw [checkCircular_singleton]
    by_cases hb : dep = ns ++ "/" ++ nm
    · rw [if_pos (by simpa using hb), if_pos hb]
    · rw [if_neg (by simpa using hb), if_neg hb]
  rw [hfun]
  refine ⟨List.length_map _ _, fun dep hdep => ?_, fun dep hdep hne => ?_⟩
  · constructor
    · intro hmem
      rcases List.mem_map.mp hmem with ⟨e, he, heq⟩
      have he1 : e = dep := congrArg Prod.fst heq
      subst he1
      by_cases hb : e = ns ++ "/" ++ nm
      · exact hb
      · rw [if_neg hb] at heq
        exact nomatch congrArg Prod.snd heq
    · intro hb
      apply List.mem_map.mpr
      exact ⟨dep, hdep, by rw [if_pos hb]⟩
  · apply List.mem_map.mpr
    exact ⟨dep, hdep, by rw [if_neg hne]⟩

/-- Closed instance of `installRegistryDeps_spec`: a component listing
itself as its own registry dependency is flagged circular while its sibling
dependency is still attempted. -/
theorem installRegistryDeps_witness :
    ("user/button", DepOutcome.circularSkipped) ∈
      installRegistryDeps "user" "button" ["user/button", "other/card"] ∧
    ("other/card", DepOutcome.installAttempted) ∈
      installRegistryDeps "user" "button" ["user/button", "other/card"] :=
  ⟨((installRegistryDeps_spec "user" "button" ["user/button", "other/card"]).2.1
      "user/button" (by decide)).mpr (by decide),
   (installRegistryDeps_spec "user" "button" ["user/button", "other/card"]).2.2
      "other/card" (by decide) (by decide)⟩

/-! ## Claim theorem: file-batch rollback (C8) -/

theorem installFilesAux_no_fail :
    ∀ (files : List (String × FileStep)) (acc : List String),
      (∀ x ∈ files, x.2 ≠ FileStep.failed) →
      installFilesAux files acc =
        (acc ++ (files.filter (fun x => x.2 == FileStep.written)).map Prod.fst, none) := by
  intro files
  induction files with
  | nil => intro acc _; simp [installFilesAux]
  | cons p rest ih =>
    intro acc h
    obtain ⟨f, s⟩ := p
    have hrest : ∀ x ∈ rest, x.2 ≠ FileStep.failed :=
      fun x hx => h x (List.mem_cons_of_mem _ hx)
    cases s with
    | skipped =>
      rw [show installFilesAux ((f, FileStep.skipped) :: rest) acc = installFilesAux rest acc from rfl]
      rw [ih acc hrest]
      simp
    | written =>
      rw [show installFilesAux ((f, FileStep.written) :: rest) acc =
            installFilesAux rest (acc ++ [f]) from rfl]
      rw [ih (acc ++ [f]) hrest]
      simp
    | failed => exact absurd rfl (h (f, FileStep.failed) (List.mem_cons_self _ _))

theorem installFilesAux_first_fail :
    ∀ (pre : List (String × FileStep)) (f : String) (post : List (String × FileStep))
      (acc : List String),
      (∀ x ∈ pre, x.2 ≠ FileStep.failed) →
      installFilesAux (pre ++ (f, FileStep.failed) :: post) acc = ([], some f) := by
  intro pre
  induction pre with
  | nil => intro f post acc _; rfl
  | cons p rest ih =>
    intro f post acc h
    obtain ⟨g, s⟩ := p
    have hrest : ∀ x ∈ rest, x.2 ≠ FileStep.failed :=
      fun x hx => h x (List.mem_cons_of_mem _ hx)
    cases s with
    | skipped => exact ih f post acc hrest
    | written => exact ih f post (acc ++ [g]) hrest
    | failed => exact absurd rfl (h (g, FileStep.failed) (List.mem_cons_self _ _))

/-- C8: if a file step fails partway through one component's batch, every
file already written in that batch is removed and the original error is
propagated, whatever comes later in the batch; when the batch succeeds the
written files stay on disk, and dependency failures after the batch never
trigger the rollback. -/
theorem installFiles_rollback_spec :
    (∀ (pre : List (String × FileStep)) (f : String) (post : List (String × FileStep)),
      (∀ x ∈ pre, x.2 ≠ FileStep.failed) →
      installFiles (pre ++ (f, FileStep.failed) :: post) = ([], some f) ∧
      ∀ depFailures, addInstallFlow (pre ++ (f, FileStep.failed) :: post) depFailures =
        ([], some f)) ∧
    (∀ files : List (String × FileStep),
      (∀ x ∈ files, x.2 ≠ FileStep.failed) →
      installFiles files = ((files.filter (fun x => x.2 == FileStep.written)).map Prod.fst, none) ∧
      ∀ depFailures, addInstallFlow files depFailures =
        ((files.filter (fun x => x.2 == FileStep.written)).map Prod.fst, none)) := by
  constructor
  · intro pre f post hpre
    have h1 : installFiles (pre ++ (f, FileStep.failed) :: post) = ([], some f) :=
      installFilesAux_first_fail pre f post [] hpre
    refine ⟨h1, fun depFailures => ?_⟩
    unfold addInstallFlow
    rw [h1]
  · intro files hok
    have h1 : installFiles files =
        ((files.filter (fun x => x.2 == FileStep.written)).map Prod.fst, none) := by
      have := installFilesAux_no_fail files [] hok
      simpa [installFiles] using this
    refine ⟨h1, fun depFailures => ?_⟩
    unfold addInstallFlow
    rw [h1]

/-- Closed instance of `installFiles_rollback_spec`: a failure on the
second file rolls back the first and propagates the error. -/
theorem installFiles_rollback_witness :
    installFiles [("a.tsx", FileStep.written), ("b.tsx", FileStep.failed),
      ("c.tsx", FileStep.written)] = ([], some "b.tsx") :=
  (installFiles_rollback_spec.1 [("a.tsx", FileStep.written)] "b.tsx"
    [("c.tsx", FileStep.written)] (by decide)).1

/-! ## Claim theorems: version resolution (C1) -/

/-- C1 (amended): when the requested version is not `"latest"` it is
returned unchanged; for `"latest"`, a successful index fetch with a
matching entry carrying a nonempty version returns that version, and in
every other case — index fetch failure, no matching entry, missing or
empty version field — the literal string `"latest"` is returned.  The
source performs no per-component fallback fetch. -/
theorem resolveComponentVersion_no_fallback (componentName version : String)
    (indexFetch : Except Unit (List IndexEntry)) :
    (version ≠ "latest" → resolveComponentVersion componentName version indexFetch = version) ∧
    (∀ index entry v, indexFetch = .ok index →
      index.find? (fun item => item.name == componentName) = some entry →
      entry.version = some v → v ≠ "" →
      resolveComponentVersion componentName "latest" indexFetch = v) ∧
    (indexFetch = .error () →
      resolveComponentVersion componentName "latest" indexFetch = "latest") ∧
    (∀ index, indexFetch = .ok index →
      index.find? (fun item => item.name == componentName) = none →
      resolveComponentVersion componentName "latest" indexFetch = "latest") ∧
    (∀ index entry, indexFetch = .ok index →
      index.find? (fun item => item.name == componentName) = some entry →
      (entry.version = none ∨ entry.version = some "") →
      resolveComponentVersion componentName "latest" indexFetch = "latest") := by
  refine ⟨?_, ?_, ?_, ?_, ?_⟩
  · intro hne
    unfold resolveComponentVersion
    rw [if_pos (by simpa using hne)]
  · intro index entry v hfetch hfind hver hvne
    subst hfetch
    unfold resolveComponentVersion
    rw [if_neg (by simp)]
    simp only [hfind, hver]
    rw [if_neg (by simpa using hvne)]
  · intro hfetch
    subst hfetch
    rfl
  · intro index hfetch hfind
    subst hfetch
    unfold resolveComponentVersion
    rw [if_neg (by simp)]
    simp only [hfind]
  · intro index entry hfetch hfind hver
    subst hfetch
    unfold resolveComponentVersion
    rw [if_neg (by simp)]
    simp only [hfind]
    rcases hver with hv | hv <;> simp [hv]

/-- Closed instance of `resolveComponentVersion_no_fallback` on a concrete
index. -/
theorem resolveComponentVersion_no_fallback_witness :
    resolveComponentVersion "user/button" "latest"
      (.ok [⟨"user/button", some "2.3.1"⟩]) = "2.3.1" :=
  (resolveComponentVersion_no_fallback "user/button" "latest"
      (.ok [⟨"user/button", some "2.3.1"⟩])).2.1
    [⟨"user/button", some "2.3.1"⟩] ⟨"user/button", some "2.3.1"⟩ "2.3.1"
    rfl (by rfl) rfl (by decide)

/-- C1: counterexample to the claim as stated.  With the index fetch
failing and the component's own `latest`-tagged metadata available and
declaring version `1.2.3`, the spec's resolver (step 2) would return
`1.2.3`, but the source returns the literal `"latest"`: the function has no
direct per-component fallback. -/
theorem resolveComponentVersion_fallback_counterexample :
    resolveComponentVersion "user/button" "latest" (Except.error ()) = "latest" ∧
    resolveComponentVersionSpec "user/button" "latest" (Except.error ())
      (Except.ok "1.2.3") = "1.2.3" :=
  ⟨rfl, rfl⟩

/-- C2 (amended): for every valid semantic version with no prerelease
identifiers, `incrementVersion` applies the claimed bump rule and the
result is strictly greater under semantic-version precedence.  (On
prerelease versions `semver.inc` deviates from the rule; see the
counterexample.) -/
theorem incrementVersion_release_spec (s : String) (v : SemVer) (t : IncType)
    (hs : parseSemVer s = some v) (hpre : v.prerelease = []) :
    incrementVersion s t = .ok (renderSemVer (specBumpRule v t)) ∧
    incSemVer v t = specBumpRule v t ∧
    semverLt v (specBumpRule v t) := by
  have hinc : incSemVer v t = specBumpRule v t := by
    cases t <;> simp [incSemVer, specBumpRule, hpre]
  refine ⟨?_, hinc, ?_⟩
  · unfold incrementVersion
    rw [hs]
    show Except.ok (renderSemVer (incSemVer v t)) = _
    rw [hinc]
  · obtain ⟨M, m, p, pre⟩ := v
    simp only at hpre
    subst hpre
    cases t with
    | major =>
      show semverCompare ⟨M, m, p, []⟩ ⟨M + 1, 0, 0, []⟩ = .lt
      have h1 : compare M (M + 1) = Ordering.lt := Nat.compare_eq_lt.mpr (Nat.lt_succ_self M)
      simp [semverCompare, cmpThen, h1, Ordering.then]
    | minor =>
      show semverCompare ⟨M, m, p, []⟩ ⟨M, m + 1, 0, []⟩ = .lt
      have h0 : compare M M = Ordering.eq := Nat.compare_eq_eq.mpr rfl
      have h1 : compare m (m + 1) = Ordering.lt := Nat.compare_eq_lt.mpr (Nat.lt_succ_self m)
      simp [semverCompare, cmpThen, h0, h1, Ordering.then]
    | patch =>
      show semverCompare ⟨M, m, p, []⟩ ⟨M, m, p + 1, []⟩ = .lt
      have h0 : compare M M = Ordering.eq := Nat.compare_eq_eq.mpr rfl
      have h1 : compare m m = Ordering.eq := Nat.compare_eq_eq.mpr rfl
      have h2 : compare p (p + 1) = Ordering.lt := Nat.compare_eq_lt.mpr (Nat.lt_succ_self p)
      simp [semverCompare, cmpThen, h0, h1, h2, Ordering.then]

/-- Closed instance of `incrementVersion_release_spec` at `1.2.3`. -/
theorem incrementVersion_release_witness :
    incrementVersion "1.2.3" IncType.minor = .ok "1.3.0" ∧
    semverLt ⟨1, 2, 3, []⟩ ⟨1, 3, 0, []⟩ := by
  have h := incrementVersion_release_spec "1.2.3" ⟨1, 2, 3, []⟩ IncType.minor (by rfl) rfl
  exact ⟨h.1, h.2.2⟩

/-- C2: counterexample to the claim as stated over all valid versions.
The version `1.0.1-alpha` is valid, but `semver.inc` with `patch` yields
`1.0.1` — it strips the prerelease tag without incrementing the patch
component — not the `1.0.2` the claimed rule demands. -/
theorem incrementVersion_counterexample :
    ¬ (∀ (s : String) (v : SemVer) (t : IncType), parseSemVer s = some v →
        incrementVersion s t = .ok (renderSemVer (specBumpRule v t))) := by
  intro h
  have hx := h "1.0.1-alpha" ⟨1, 0, 1, [.str "alpha"]⟩ IncType.patch (by rfl)
  have h1 : incrementVersion "1.0.1-alpha" IncType.patch = Except.ok "1.0.1" := by rfl
  have h2 : renderSemVer (specBumpRule ⟨1, 0, 1, [.str "alpha"]⟩ IncType.patch) = "1.0.2" := by rfl
  rw [h1, h2] at hx
  exact absurd (Except.ok.inj hx) (by decide)

/-! ## Claim theorems: reserved names (C7) -/

/-- C7 (amended): every catalog name is redirected (not rejected) to the
vendor installer, both as a top-level `add` target and as a registry
dependency whose final path segment is reserved; the `create`/`fork` name
gate `validateComponentName` consults a different reserved list and accepts
every catalog name, so catalog names are not rejected at creation or fork
time. -/
theorem reservedName_guard_spec :
    (∀ name, isReservedComponentName name = true →
      addCommandRoute name = TopRoute.vendorRedirect name ∧
      ∀ dep, jsSplitPop dep = name → registryDepRoute dep = DepRoute.vendor name) ∧
    SHADCN_RESERVED_NAMES.all (fun n => (validateComponentName n).isValid) = true := by
  constructor
  · intro name h
    constructor
    · unfold addCommandRoute
      rw [if_pos h]
    · intro dep hdep
      show (if isReservedComponentName (jsSplitPop dep) = true
            then DepRoute.vendor (jsSplitPop dep) else DepRoute.scmAdd dep) = DepRoute.vendor name
      rw [hdep, if_pos h]
  · decide

/-- Closed instance of `reservedName_guard_spec` at the catalog name
`card`. -/
theorem reservedName_guard_witness :
    addCommandRoute "card" = TopRoute.vendorRedirect "card" ∧
    registryDepRoute "user/card" = DepRoute.vendor "card" :=
  ⟨(reservedName_guard_spec.1 "card" (by decide)).1,
   (reservedName_guard_spec.1 "card" (by decide)).2 "user/card" (by rfl)⟩

/-- C7: counterexample to the claim as stated.  The catalog name `button`
is reserved, yet the creation-time (and fork-time) name gate
`validateComponentName` accepts it: the current `create`/`fork` commands
validate against a different reserved list that does not include the
vendor catalog. -/
theorem reservedName_creation_counterexample :
    isReservedComponentName "button" = true ∧
    (validateComponentName "button").isValid = true := by decide

/-! ## Claim theorems: latest-version selection (C10) -/

theorem semverCompareStr_lawful : LawfulCmp semverCompareStr :=
  semverCompare_lawful.comap (fun s => (parseSemVer s).getD ⟨0, 0, 0, []⟩)

theorem semverLeB_iff (a b : String) :
    semverLeB a b = true ↔ semverCompareStr a b ≠ .gt := by
  unfold semverLeB
  cases h : semverCompareStr a b <;> simp

theorem semverLeB_trans : ∀ (a b c : String),
    semverLeB a b = true → semverLeB b c = true → semverLeB a c = true :=
  fun a b c h1 h2 => (semverLeB_iff a c).mpr
    (semverCompareStr_lawful.le_trans ((semverLeB_iff a b).mp h1) ((semverLeB_iff b c).mp h2))

theorem semverLeB_total : ∀ (a b : String), (semverLeB a b || semverLeB b a) = true := by
  intro a b
  rcases semverCompareStr_lawful.le_total a b with h | h
  · rw [(semverLeB_iff a b).mpr h]
    rfl
  · rw [(semverLeB_iff b a).mpr h]
    simp

theorem semverLeB_refl (a : String) : semverLeB a a = true :=
  (semverLeB_iff a a).mpr (by rw [semverCompareStr_lawful.cmp_refl a]; simp)

theorem pairwise_le_getLast {α : Type _} (le : α → α → Bool) (hrefl : ∀ a, le a a = true) :
    ∀ (l : List α), l.Pairwise (fun a b => le a b = true) →
      ∀ m, l.getLast? = some m → ∀ x ∈ l, le x m = true := by
  intro l
  induction l with
  | nil => intro _ m hm; exact absurd hm (by simp)
  | cons a t ih =>
    intro hp m hm x hx
    cases t with
    | nil =>
      have hma : m = a := by
        rw [show ([a] : List α).getLast? = some a from rfl] at hm
        exact (Option.some.inj hm).symm
      have hxa : x = a := by simpa using hx
      rw [hma, hxa]
      exact hrefl a
    | cons b t2 =>
      rw [List.getLast?_cons_cons] at hm
      have hp' := List.pairwise_cons.mp hp
      rcases List.mem_cons.mp hx with rfl | hx2
      · exact hp'.1 m (List.mem_of_getLast?_eq_some hm)
      · exact ih hp'.2 m hm x hx2

/-- C10: `getLatestVersion` ignores entries that are not valid semantic
versions, returns `null` exactly when no valid entry exists, and otherwise
returns a valid entry of the list that is greatest under semantic-version
precedence. -/
theorem getLatestVersion_spec (versions : List String) :
    (getLatestVersion versions = none ↔ ∀ v ∈ versions, semverValid v = false) ∧
    (∀ m, getLatestVersion versions = some m →
      m ∈ versions ∧ semverValid m = true ∧
      ∀ v ∈ versions, semverValid v = true → semverCompareStr v m ≠ .gt) := by
  unfold getLatestVersion
  by_cases hempty : (versions.filter semverValid).length = 0
  · rw [if_pos hempty]
    constructor
    · constructor
      · intro _ v hv
        have hnil : versions.filter semverValid = [] := List.length_eq_zero.mp hempty
        cases hb : semverValid v with
        | false => rfl
        | true =>
          have hmem : v ∈ versions.filter semverValid := List.mem_filter.mpr ⟨hv, hb⟩
          rw [hnil] at hmem
          exact absurd hmem (List.not_mem_nil v)
      · intro _
        rfl
    · intro m hm
      exact absurd hm (by simp)
  · rw [if_neg hempty]
    have hsorted : ((versions.filter semverValid).mergeSort semverLeB).Pairwise
        (fun a b => semverLeB a b = true) :=
      List.sorted_mergeSort semverLeB_trans semverLeB_total (versions.filter semverValid)
    constructor
    · constructor
      · intro hnone
        exfalso
        have hlen : ((versions.filter semverValid).mergeSort semverLeB).length ≠ 0 := by
          rw [List.length_mergeSort]
          exact hempty
        have hnil : (versions.filter semverValid).mergeSort semverLeB = [] := by
          rwa [List.getLast?_eq_none_iff] at hnone
        rw [hnil] at hlen
        exact hlen rfl
      · intro hall
        exfalso
        apply hempty
        rw [List.length_eq_zero, List.filter_eq_nil_iff]
        intro v hv
        rw [hall v hv]
        simp
    · intro m hm
      have hmem : m ∈ (versions.filter semverValid).mergeSort semverLeB :=
        List.mem_of_getLast?_eq_some hm
      have hmf : m ∈ versions.filter semverValid := List.mem_mergeSort.mp hmem
      have hmv := List.mem_filter.mp hmf
      refine ⟨hmv.1, hmv.2, ?_⟩
      intro v hv hvt
      have hvm : v ∈ (versions.filter semverValid).mergeSort semverLeB :=
        List.mem_mergeSort.mpr (List.mem_filter.mpr ⟨hv, hvt⟩)
      exact (semverLeB_iff v m).mp
        (pairwise_le_getLast semverLeB semverLeB_refl _ hsorted m hm v hvm)

/-- Closed instance of `getLatestVersion_spec`: `1.10.0` beats `1.2.0`
under semver precedence (numeric, not lexicographic, comparison) and the
invalid entry is ignored. -/
theorem getLatestVersion_witness :
    "1.10.0" ∈ ["not-semver", "1.2.0", "1.10.0"] ∧ semverValid "1.10.0" = true ∧
    ∀ v ∈ ["not-semver", "1.2.0", "1.10.0"], semverValid v = true →
      semverCompareStr v "1.10.0" ≠ .gt := by
  have hf : ["not-semver", "1.2.0", "1.10.0"].filter semverValid = ["1.2.0", "1.10.0"] := by
    decide
  have hp : (["1.2.0", "1.10.0"] : List String).Pairwise (fun a b => semverLeB a b = true) := by
    decide
  have hs : (["1.2.0", "1.10.0"] : List String).mergeSort semverLeB = ["1.2.0", "1.10.0"] :=
    List.mergeSort_of_sorted hp
  have hres : getLatestVersion ["not-semver", "1.2.0", "1.10.0"] = some "1.10.0" := by
    unfold getLatestVersion
    rw [hf, if_neg (by decide), hs]
    rfl
  exact (getLatestVersion_spec ["not-semver", "1.2.0", "1.10.0"]).2 "1.10.0" hres

end SCM
